import Mathlib

/-!
Verification of the concurrency-control utility core of the repository
(the `Utils` class: `batchProcess`, `retry`, `timeout`, `debounce`,
`throttle`).  Asynchronous code is shallowly embedded: a processor is a
function into `Except`, the event loop is deterministic, and time is a
natural number of time units.  The batch loop, whose source is a
`for (i = 0; i < items.length; i += concurrency)` loop, is embedded with
explicit fuel so that non-termination for non-positive concurrency is
observable as `none`.
-/

namespace SteerUtils

/-- JavaScript `Array.prototype.slice(start, stop)` on a list, with the
ECMAScript handling of negative indices (counted from the end) and
clamping to `[0, length]`. -/
def jsSlice (l : List α) (start stop : Int) : List α :=
  let len : Int := l.length
  let s : Int := if start < 0 then max (len + start) 0 else min start len
  let e : Int := if stop < 0 then max (len + stop) 0 else min stop len
  (l.drop s.toNat).take (e - s).toNat

/-- `Promise.all` over an already-built list of settled outcomes: the
whole batch resolves with the list of values, or rejects with the first
rejection in list order.  Every element of the list was produced, i.e.
every processor in the chunk was invoked, whether or not some fail. -/
def promiseAll : List (Except E R) → Except E (List R)
  | [] => .ok []
  | r :: rest =>
    match r with
    | .error e => .error e
    | .ok v => (promiseAll rest).map (fun vs => v :: vs)

/-- The body of `Utils.batchProcess`'s chunking loop
(`for (let i = 0; i < items.length; i += concurrency)`), with explicit
fuel.  `i` is the current index (a JS number, so an `Int`: with negative
concurrency it goes negative), `acc` the results accumulated so far, and
`inv` the trace of items whose processor has been invoked, in invocation
order.  Fuel exhaustion returns `none` in the first component: the loop
is still running. -/
def batchLoop (items : List T) (proc : T → Except E R) (c : Int) :
    Nat → Int → List R → List T → Option (Except E (List R)) × List T
  | 0, _, _, inv => (none, inv)
  | fuel + 1, i, acc, inv =>
    if i < (items.length : Int) then
      let batch := jsSlice items i (i + c)
      match promiseAll (batch.map proc) with
      | .error e => (some (.error e), inv ++ batch)
      | .ok rs => batchLoop items proc c fuel (i + c) (acc ++ rs) (inv ++ batch)
    else
      (some (.ok acc), inv)

/-- `Utils.batchProcess items processor concurrency`, run with the given
fuel.  Returns the outcome (`none` when the loop has not finished within
`fuel` iterations) together with the list of items whose processor was
invoked. -/
def batchProcess (items : List T) (proc : T → Except E R) (c : Int) (fuel : Nat) :
    Option (Except E (List R)) × List T :=
  batchLoop items proc c fuel 0 [] []

theorem jsSlice_natCast (l : List α) (k : Nat) (c : Int) (hk : k ≤ l.length)
    (hc : 0 ≤ c) : jsSlice l (k : Int) ((k : Int) + c) = (l.drop k).take c.toNat := by
  unfold jsSlice
  have h0 : ¬ ((k : Int) < 0) := by omega
  have h1 : ¬ ((k : Int) + c < 0) := by omega
  simp only [h0, h1, if_neg, not_false_iff]
  have hs : min (k : Int) (l.length : Int) = (k : Int) := by
    simp [min_eq_left]; exact_mod_cast hk
  rw [hs]
  rcases le_or_lt ((k : Int) + c) (l.length : Int) with h | h
  · have he : min ((k : Int) + c) (l.length : Int) = (k : Int) + c := min_eq_left h
    rw [he]
    congr 1
    omega
  · have he : min ((k : Int) + c) (l.length : Int) = (l.length : Int) := min_eq_right h.le
    rw [he]
    have h2 : ((l.length : Int) - k).toNat = l.length - k := by omega
    rw [h2]
    have h3 : l.length - k ≤ c.toNat := by omega
    simp only [Int.toNat_natCast]
    rw [List.take_of_length_le (by simp), List.take_of_length_le (by simp; omega)]

theorem promiseAll_map_ok (l : List T) (f : T → R) :
    promiseAll (l.map (fun t => (Except.ok (f t) : Except E R))) = .ok (l.map f) := by
  induction l with
  | nil => rfl
  | cons x xs ih => simp [promiseAll, ih, Except.map]

theorem batchLoop_allOk (items : List T) (f : T → R) (c : Int) (hc : 1 ≤ c) :
    ∀ (fuel : Nat) (k : Nat) (acc : List R) (inv : List T), items.length - k < fuel →
    batchLoop items (fun t => (Except.ok (f t) : Except E R)) c fuel (k : Int) acc inv
      = (some (.ok (acc ++ (items.drop k).map f)), inv ++ items.drop k) := by
  intro fuel
  induction fuel with
  | zero => intro k acc inv h; omega
  | succ fuel ih =>
    intro k acc inv h
    by_cases hk : k < items.length
    · have hkint : (k : Int) < (items.length : Int) := by exact_mod_cast hk
      simp only [batchLoop, if_pos hkint]
      rw [jsSlice_natCast items k c (le_of_lt hk) (by omega)]
      rw [promiseAll_map_ok]
      have hcast : (k : Int) + c = ((k + c.toNat : Nat) : Int) := by
        push_cast; omega
      rw [hcast]
      dsimp only
      rw [ih (k + c.toNat) _ _ (by omega)]
      have hdrop : (items.drop k).drop c.toNat = items.drop (k + c.toNat) := by
        rw [List.drop_drop]
      have hsplit : (items.drop k).take c.toNat ++ items.drop (k + c.toNat)
          = items.drop k := by
        rw [← hdrop, List.take_append_drop]
      rw [List.append_assoc acc, ← List.map_append, hsplit, List.append_assoc inv, hsplit]
    · have hkint : ¬ ((k : Int) < (items.length : Int)) := by
        simp only [not_lt]; exact_mod_cast Nat.le_of_not_lt hk
      simp only [batchLoop, if_neg hkint]
      rw [List.drop_eq_nil_of_le (Nat.le_of_not_lt hk)]
      simp

/-- C1: for every item list, every pure per-item function and every
concurrency `c ≥ 1`, `batchProcess` (run with enough fuel) terminates and
returns exactly the input-ordered list of per-item results — a result
list of the same length as the input, whose `i`-th entry is the
processor's result on the `i`-th item — with every item's processor
invoked exactly once in input order; the right-hand side does not mention
`c`, so the output is identical for every concurrency (in particular for
`c = 1` and for `c ≥ N`); and for the empty input list the call returns
the empty list with no processor invocation, for every processor. -/
theorem batchProcess_order_and_length (items : List T) (f : T → R) (c : Int)
    (fuel : Nat) (hc : 1 ≤ c) (hfuel : items.length < fuel) :
    batchProcess items (fun t => (Except.ok (f t) : Except E R)) c fuel
      = (some (.ok (items.map f)), items)
  ∧ ∀ (E2 T2 R2 : Type) (proc : T2 → Except E2 R2) (c2 : Int) (fuel2 : Nat),
      0 < fuel2 → batchProcess ([] : List T2) proc c2 fuel2 = (some (.ok []), []) := by
  constructor
  · have h := batchLoop_allOk (E := E) items f c hc fuel 0 [] [] (by omega)
    simpa [batchProcess] using h
  · intro E2 T2 R2 proc c2 fuel2 hfuel2
    match fuel2, hfuel2 with
    | fuel2 + 1, _ =>
      simp [batchProcess, batchLoop]

/-- Witness for C1 at a concrete input: three items, concurrency 2,
fuel 4 — and separately the empty list with a failing processor. -/
theorem batchProcess_order_and_length_witness :
    batchProcess [1, 2, 3] (fun t => (Except.ok (t + 10) : Except Unit Nat)) 2 4
      = (some (.ok [11, 12, 13]), [1, 2, 3])
  ∧ batchProcess ([] : List Nat) (fun _ => (Except.error () : Except Unit Nat)) 5 1
      = (some (.ok []), []) := by
  have h := batchProcess_order_and_length [1, 2, 3] (fun t => t + 10) (E := Unit) 2 4
    (by norm_num) (by norm_num)
  exact ⟨by simpa using h.1, h.2 Unit Nat Nat _ 5 1 (by norm_num)⟩

theorem promiseAll_ok_of_forall (rs : List (Except E R))
    (h : ∀ r ∈ rs, ∃ v, r = .ok v) : ∃ vs, promiseAll rs = .ok vs := by
  induction rs with
  | nil => exact ⟨[], rfl⟩
  | cons r rest ih =>
    obtain ⟨v, rfl⟩ := h r (by simp)
    obtain ⟨vs, hvs⟩ := ih (fun r hr => h r (by simp [hr]))
    exact ⟨v :: vs, by simp [promiseAll, hvs, Except.map]⟩

theorem promiseAll_firstError (proc : T → Except E R) (l1 : List T) (bad : T)
    (l2 : List T) (e : E) (h1 : ∀ t ∈ l1, ∃ r, proc t = .ok r)
    (hbad : proc bad = .error e) :
    promiseAll ((l1 ++ bad :: l2).map proc) = .error e := by
  induction l1 with
  | nil => simp [promiseAll, hbad]
  | cons x xs ih =>
    obtain ⟨r, hr⟩ := h1 x (by simp)
    have hrec := ih (fun t ht => h1 t (by simp [ht]))
    rw [List.cons_append, List.map_cons]
    simp only [promiseAll, hr]
    rw [hrec]
    rfl

theorem batchLoop_firstError (pre post : List T) (bad : T) (e : E)
    (proc : T → Except E R) (hpre : ∀ t ∈ pre, ∃ r, proc t = .ok r)
    (hbad : proc bad = .error e) (c' : Nat) (hc : 1 ≤ c') :
    ∀ (fuel : Nat) (k : Nat) (acc : List R) (inv : List T),
      k ≤ pre.length → (pre ++ bad :: post).length - k < fuel →
      batchLoop (pre ++ bad :: post) proc (c' : Int) fuel (k : Int) acc inv
        = (some (.error e),
           inv ++ ((pre ++ bad :: post).drop k).take
             (((pre.length - k) / c' + 1) * c')) := by
  intro fuel
  induction fuel with
  | zero =>
    intro k acc inv hk h
    exfalso
    simp only [List.length_append, List.length_cons] at h
    omega
  | succ fuel ih =>
    intro k acc inv hk h
    have hlen : pre.length < (pre ++ bad :: post).length := by
      simp [List.length_append]
    have hklt : k < (pre ++ bad :: post).length := by omega
    have hkint : (k : Int) < ((pre ++ bad :: post).length : Int) := by
      exact_mod_cast hklt
    simp only [batchLoop, if_pos hkint]
    rw [jsSlice_natCast _ k (c' : Int) (le_of_lt hklt) (by omega)]
    have hdropk : (pre ++ bad :: post).drop k = pre.drop k ++ bad :: post := by
      rw [List.drop_append_of_le_length hk]
    have hlendrop : (pre.drop k).length = pre.length - k := by simp
    rw [Int.toNat_natCast]
    by_cases hcase : k + c' ≤ pre.length
    · -- the whole chunk lies inside `pre`: every item succeeds
      have hchunk : ((pre ++ bad :: post).drop k).take c' = (pre.drop k).take c' := by
        rw [hdropk, List.take_append_of_le_length (by omega)]
      rw [hchunk]
      have hall : ∀ r ∈ ((pre.drop k).take c').map proc, ∃ v, r = .ok v := by
        intro r hr
        simp only [List.mem_map] at hr
        obtain ⟨t, ht, rfl⟩ := hr
        exact hpre t (List.mem_of_mem_drop (List.mem_of_mem_take ht))
      obtain ⟨vs, hvs⟩ := promiseAll_ok_of_forall _ hall
      rw [hvs]
      dsimp only
      have hcast : (k : Int) + (c' : Int) = ((k + c' : Nat) : Int) := by push_cast; ring
      have hfuel2 : (pre ++ bad :: post).length - (k + c') < fuel := by
        simp only [List.length_append, List.length_cons] at h ⊢
        omega
      rw [hcast, ih (k + c') _ _ (by omega) hfuel2]
      have hdiv : (pre.length - k) / c' = (pre.length - (k + c')) / c' + 1 := by
        have hsub : pre.length - k = (pre.length - (k + c')) + c' := by omega
        rw [hsub, Nat.add_div_right _ (by omega)]
      have hmul : ((pre.length - k) / c' + 1) * c'
          = c' + ((pre.length - (k + c')) / c' + 1) * c' := by
        rw [hdiv]; ring
      have hdd : ((pre ++ bad :: post).drop k).drop c'
          = (pre ++ bad :: post).drop (k + c') := by
        rw [List.drop_drop]
      rw [hmul, List.take_add, hdd, hchunk, List.append_assoc]
    · -- the chunk reaches `bad`: the chunk's `Promise.all` rejects with `e`
      obtain ⟨m, hm⟩ : ∃ m, c' - (pre.length - k) = m + 1 :=
        ⟨c' - (pre.length - k) - 1, by omega⟩
      have hchunk : ((pre ++ bad :: post).drop k).take c'
          = pre.drop k ++ bad :: post.take m := by
        rw [hdropk, List.take_append_eq_append_take,
          List.take_of_length_le (by simp only [List.length_drop]; omega),
          hlendrop, hm, List.take_succ_cons]
      rw [hchunk, promiseAll_firstError proc (pre.drop k) bad _ e
        (fun t ht => hpre t (List.mem_of_mem_drop ht)) hbad]
      dsimp only
      have hdiv : (pre.length - k) / c' = 0 := Nat.div_eq_of_lt (by omega)
      rw [hdiv, ← hchunk]
      simp

/-- C4: fail-fast semantics of `batchProcess`.  If the first failing item
is `bad` (all items before it succeed) then, for every concurrency
`c ≥ 1` and enough fuel, the whole call fails with that item's failure
`e` surfaced unchanged (not wrapped), no partial result list is returned
(the outcome is `Except.error e`, not an `ok`), and the trace of invoked
items is exactly the input prefix up to the end of the failing chunk —
so no item of any later chunk ever has its processor invoked. -/
theorem batchProcess_failFast (pre post : List T) (bad : T) (e : E)
    (proc : T → Except E R) (c : Int) (fuel : Nat) (hc : 1 ≤ c)
    (hfuel : (pre ++ bad :: post).length < fuel)
    (hpre : ∀ t ∈ pre, ∃ r, proc t = .ok r) (hbad : proc bad = .error e) :
    batchProcess (pre ++ bad :: post) proc c fuel
      = (some (.error e),
         (pre ++ bad :: post).take ((pre.length / c.toNat + 1) * c.toNat)) := by
  have hc' : 1 ≤ c.toNat := by omega
  have hcast : ((c.toNat : Nat) : Int) = c := Int.toNat_of_nonneg (by omega)
  have h := batchLoop_firstError pre post bad e proc hpre hbad c.toNat hc'
    fuel 0 [] [] (by omega) (by omega)
  rw [hcast] at h
  simpa [batchProcess] using h

/-- Witness for C4: items `[1,2,3,4,5,6,7]` with item `4` failing,
concurrency 2 — the call rejects with the failure `9` of item `4` and
only the chunks `[1,2]` and `[3,4]` are invoked. -/
theorem batchProcess_failFast_witness :
    batchProcess [1, 2, 3, 4, 5, 6, 7]
      (fun t => if t = 4 then (Except.error 9 : Except Nat Nat) else .ok t) 2 8
      = (some (.error 9), [1, 2, 3, 4]) := by
  have h := batchProcess_failFast [1, 2, 3] [5, 6, 7] 4 9
    (fun t => if t = 4 then (Except.error 9 : Except Nat Nat) else .ok t) 2 8
    (by norm_num) (by norm_num)
    (by intro t ht; fin_cases ht <;> exact ⟨_, rfl⟩) (by norm_num)
  simpa using h

theorem jsSlice_zero_zero (l : List α) : jsSlice l 0 0 = [] := by
  unfold jsSlice
  have h1 : ¬ ((0 : Int) < 0) := by omega
  have h2 : min (0 : Int) (l.length : Int) = 0 := by
    have : (0 : Int) ≤ l.length := by positivity
    omega
  simp only [h1, if_neg, not_false_iff, h2]
  simp

theorem batchLoop_isSome (items : List T) (proc : T → Except E R) (c : Int)
    (hc : 1 ≤ c) :
    ∀ (fuel k : Nat) (acc : List R) (inv : List T), items.length - k < fuel →
      ((batchLoop items proc c fuel (k : Int) acc inv).1).isSome = true := by
  intro fuel
  induction fuel with
  | zero => intro k acc inv h; omega
  | succ fuel ih =>
    intro k acc inv h
    by_cases hk : k < items.length
    · have hkint : (k : Int) < (items.length : Int) := by exact_mod_cast hk
      simp only [batchLoop, if_pos hkint]
      cases hall : promiseAll ((jsSlice items (k : Int) ((k : Int) + c)).map proc) with
      | error e => simp
      | ok rs =>
        dsimp only
        have hcast : (k : Int) + c = ((k + c.toNat : Nat) : Int) := by push_cast; omega
        rw [hcast]
        exact ih (k + c.toNat) _ _ (by omega)
    · have hkint : ¬ ((k : Int) < (items.length : Int)) := by
        simp only [not_lt]; exact_mod_cast Nat.le_of_not_lt hk
      simp only [batchLoop, if_neg hkint]
      simp

theorem batchLoop_nonpos_ok (items : List T) (f : T → R) (c : Int)
    (hc : c ≤ 0) (hne : 1 ≤ items.length) :
    ∀ (fuel : Nat) (i : Int), i ≤ 0 → ∀ (acc : List R) (inv : List T),
      (batchLoop items (fun t => (Except.ok (f t) : Except E R)) c fuel i acc inv).1
        = none := by
  intro fuel
  induction fuel with
  | zero => intro i hi acc inv; rfl
  | succ fuel ih =>
    intro i hi acc inv
    have hlen : (1 : Int) ≤ (items.length : Int) := by exact_mod_cast hne
    have hint : i < (items.length : Int) := by omega
    simp only [batchLoop, if_pos hint]
    rw [promiseAll_map_ok]
    dsimp only
    exact ih (i + c) (by omega) _ _

/-- C10, amended: for every concurrency `c ≥ 1` the chunking loop of
`batchProcess` terminates within `items.length + 1` iterations (the
index strictly increases by `c` each iteration), for every processor and
every outcome; and for every `c ≤ 0` with a never-failing processor and
a non-empty input the loop index never passes the list and the call
never terminates (it is still running after every amount of fuel).  The
original claim's stronger statement — non-termination for **every**
processor when `c ≤ 0` — is false: with `c < 0` the first chunk
`items.slice(0, c)` can be non-empty, and a failing item in it
terminates the call by rejection (see the counterexample). -/
theorem batchProcess_termination (T E R : Type)
    (items : List T) (proc : T → Except E R) (c : Int) (fuel : Nat) :
    (1 ≤ c → items.length < fuel →
      ((batchProcess items proc c fuel).1).isSome = true)
  ∧ (∀ (f : T → R) (c2 : Int) (fuel2 : Nat), c2 ≤ 0 → 1 ≤ items.length →
      (batchProcess items (fun t => (Except.ok (f t) : Except E R)) c2 fuel2).1
        = none) := by
  constructor
  · intro hc hfuel
    exact batchLoop_isSome items proc c hc fuel 0 [] [] (by omega)
  · intro f c2 fuel2 hc2 hne
    exact batchLoop_nonpos_ok items f c2 hc2 hne fuel2 0 (by omega) [] []

/-- Witness for C10 at concrete inputs: concurrency 2 terminates on a
three-item list within fuel 5; concurrency 0 on a non-empty list is
still running after 100 iterations. -/
theorem batchProcess_termination_witness :
    ((batchProcess [1, 2, 3] (fun t => (Except.ok t : Except Unit Nat)) 2 5).1).isSome
      = true
  ∧ (batchProcess [1, 2] (fun t => (Except.ok t : Except Unit Nat)) 0 100).1 = none := by
  have h := batchProcess_termination Nat Unit Nat [1, 2, 3]
    (fun t => (Except.ok t : Except Unit Nat)) 2 5
  have h2 := batchProcess_termination Nat Unit Nat [1, 2]
    (fun t => (Except.ok t : Except Unit Nat)) 0 100
  exact ⟨h.1 (by norm_num) (by norm_num),
    h2.2 (fun t => t) 0 100 (by norm_num) (by norm_num)⟩

/-- Counterexample to C10 as stated: with concurrency `-1` (which is
`≤ 0`) and the non-empty input `[0, 1]`, a processor that fails on item
`0` makes the call terminate after the very first iteration — the first
chunk is `items.slice(0, -1) = [0]`, its `Promise.all` rejects, and the
rejection is surfaced.  So "the call never terminates for every
concurrency ≤ 0 and every non-empty input list" fails. -/
theorem batchProcess_nonpos_terminates :
    batchProcess [0, 1]
      (fun t => if t = 0 then (Except.error 7 : Except Nat Nat) else .ok t) (-1) 1
      = (some (.error 7), [0]) := by rfl

theorem batchLoop_zero_conc (items : List T) (proc : T → Except E R)
    (hne : 1 ≤ items.length) :
    ∀ (fuel : Nat) (acc : List R) (inv : List T),
      batchLoop items proc 0 fuel 0 acc inv = (none, inv) := by
  intro fuel
  induction fuel with
  | zero => intro acc inv; rfl
  | succ fuel ih =>
    intro acc inv
    have hlen : (0 : Int) < (items.length : Int) := by exact_mod_cast hne
    simp only [batchLoop, if_pos hlen]
    rw [show (0 : Int) + 0 = 0 by omega, jsSlice_zero_zero]
    simp only [List.map_nil, promiseAll]
    rw [List.append_nil, List.append_nil]
    exact ih acc inv

/-- C9, amended: `batchProcess` performs no validation of its
concurrency argument — no `InvalidArgument` (nor any other) error is
raised for `c ≤ 0`.  With `c = 0` no processor is ever invoked and the
call never returns (it is still running, with an empty invocation trace,
after every amount of fuel); with `c < 0` processor invocations **can**
occur, because the first chunk is `items.slice(0, c)`, which is
non-empty whenever `items.length > -c` (see the counterexample). -/
theorem batchProcess_no_validation (T E R : Type) :
    ∀ (items : List T) (proc : T → Except E R) (fuel : Nat), 1 ≤ items.length →
      batchProcess items proc 0 fuel = (none, []) := by
  intro items proc fuel hne
  unfold batchProcess
  rw [batchLoop_zero_conc items proc hne fuel [] []]

/-- Witness for C9's amended statement: concurrency 0 on `[1, 2]` is
still running after 50 iterations, with no error raised and no
processor invoked. -/
theorem batchProcess_no_validation_witness :
    batchProcess [1, 2] (fun t => (Except.ok t : Except Unit Nat)) 0 50
      = (none, []) :=
  batchProcess_no_validation Nat Unit Nat [1, 2]
    (fun t => (Except.ok t : Except Unit Nat)) 50 (by norm_num)

/-- Counterexample to C9 as stated: with concurrency `-1` on `[0, 1]`
and a total processor, after 5 iterations the call has raised no error
at all (the outcome channel still holds `none`: the loop is spinning)
and, worse, the processor **has** been invoked — on item `0`, because the
first chunk `items.slice(0, -1)` equals `[0]`.  So neither "an
`InvalidArgument` error is raised synchronously" nor "no processor
invocation occurs" holds on the source. -/
theorem batchProcess_nonpos_no_error :
    batchProcess [0, 1] (fun t => (Except.ok t : Except Unit Nat)) (-1) 5
      = (none, [0]) := by rfl

/-- The body of `Utils.retry`'s attempt loop
(`for (let attempt = 0; attempt <= maxRetries; attempt++)`).  The
operation is a function of the attempt index (the outcome of its `k`-th
invocation); `remaining = maxRetries - attempt` counts the attempts still
allowed after the current one, so `remaining = 0` is the
`attempt === maxRetries` case, which rethrows the last error with no
further sleep.  Returns the outcome, the total number of invocations of
the operation, and the list of backoff delays slept, in order
(`baseDelay * 2 ^ attempt` before each re-attempt). -/
def retryLoop (op : Nat → Except E T) (baseDelay : Nat) :
    Nat → Nat → Except E T × Nat × List Nat
  | 0, attempt =>
    (match op attempt with
     | .ok v => .ok v
     | .error e => .error e, 1, [])
  | remaining + 1, attempt =>
    match op attempt with
    | .ok v => (.ok v, 1, [])
    | .error _ =>
      let d := baseDelay * 2 ^ attempt
      let r := retryLoop op baseDelay remaining (attempt + 1)
      (r.1, r.2.1 + 1, d :: r.2.2)

/-- `Utils.retry operation maxRetries baseDelay`: run the attempt loop
from attempt 0. -/
def retry (op : Nat → Except E T) (maxRetries baseDelay : Nat) :
    Except E T × Nat × List Nat :=
  retryLoop op baseDelay maxRetries 0

theorem retryLoop_count_le (op : Nat → Except E T) (baseDelay : Nat) :
    ∀ (remaining attempt : Nat),
      (retryLoop op baseDelay remaining attempt).2.1 ≤ remaining + 1 := by
  intro remaining
  induction remaining with
  | zero => intro attempt; simp [retryLoop]
  | succ remaining ih =>
    intro attempt
    cases hop : op attempt with
    | ok v => simp [retryLoop, hop]
    | error e =>
      simp only [retryLoop, hop]
      have := ih (attempt + 1)
      omega

theorem delayList_shift (D a j : Nat) :
    (List.range (j + 1)).map (fun i => D * 2 ^ (a + i))
      = D * 2 ^ a :: (List.range j).map (fun i => D * 2 ^ (a + 1 + i)) := by
  rw [List.range_succ_eq_map, List.map_cons, List.map_map]
  have h1 : D * 2 ^ (a + 0) = D * 2 ^ a := by rw [Nat.add_zero]
  have h2 : List.map ((fun i => D * 2 ^ (a + i)) ∘ Nat.succ) (List.range j)
      = List.map (fun i => D * 2 ^ (a + 1 + i)) (List.range j) := by
    apply List.map_congr_left
    intro i _
    simp only [Function.comp_apply]
    congr 2
    omega
  rw [h1, h2]

theorem retryLoop_firstSuccess (op : Nat → Except E T) (baseDelay : Nat) :
    ∀ (j remaining attempt : Nat) (v : T), j ≤ remaining →
      (∀ i, i < j → ∃ e, op (attempt + i) = .error e) →
      op (attempt + j) = .ok v →
      retryLoop op baseDelay remaining attempt
        = (.ok v, j + 1, (List.range j).map (fun i => baseDelay * 2 ^ (attempt + i))) := by
  intro j
  induction j with
  | zero =>
    intro remaining attempt v _ _ hok
    rw [Nat.add_zero] at hok
    cases remaining with
    | zero => simp [retryLoop, hok]
    | succ remaining => simp [retryLoop, hok]
  | succ j ih =>
    intro remaining attempt v hj hfail hok
    obtain ⟨e0, he0⟩ := hfail 0 (by omega)
    rw [Nat.add_zero] at he0
    obtain ⟨remaining, rfl⟩ : ∃ r, remaining = r + 1 := ⟨remaining - 1, by omega⟩
    simp only [retryLoop, he0]
    rw [ih remaining (attempt + 1) v (by omega)
      (fun i hi => by
        obtain ⟨e, he⟩ := hfail (i + 1) (by omega)
        exact ⟨e, by rwa [show attempt + 1 + i = attempt + (i + 1) by omega]⟩)
      (by rwa [show attempt + 1 + j = attempt + (j + 1) by omega])]
    rw [delayList_shift]

theorem retryLoop_allFail (op : Nat → Except E T) (baseDelay : Nat)
    (hfail : ∀ i, ∃ e, op i = .error e) :
    ∀ (remaining attempt : Nat), ∃ e, op (attempt + remaining) = .error e ∧
      retryLoop op baseDelay remaining attempt
        = (.error e, remaining + 1,
           (List.range remaining).map (fun i => baseDelay * 2 ^ (attempt + i))) := by
  intro remaining
  induction remaining with
  | zero =>
    intro attempt
    obtain ⟨e, he⟩ := hfail attempt
    exact ⟨e, by simpa using he, by simp [retryLoop, he]⟩
  | succ remaining ih =>
    intro attempt
    obtain ⟨e0, he0⟩ := hfail attempt
    obtain ⟨e, he, hrec⟩ := ih (attempt + 1)
    refine ⟨e, by rwa [show attempt + 1 + remaining = attempt + (remaining + 1) by omega] at he, ?_⟩
    simp only [retryLoop, he0, hrec]
    rw [delayList_shift]

theorem retryLoop_count_pos (op : Nat → Except E T) (D : Nat) :
    ∀ (remaining attempt : Nat), 1 ≤ (retryLoop op D remaining attempt).2.1 := by
  intro remaining attempt
  cases remaining with
  | zero => simp [retryLoop]
  | succ remaining =>
    cases hop : op attempt with
    | ok v => simp [retryLoop, hop]
    | error e => simp [retryLoop, hop]

theorem retryLoop_delays (op : Nat → Except E T) (D : Nat) :
    ∀ (remaining attempt : Nat),
      (retryLoop op D remaining attempt).2.2
        = (List.range ((retryLoop op D remaining attempt).2.1 - 1)).map
            (fun i => D * 2 ^ (attempt + i)) := by
  intro remaining
  induction remaining with
  | zero => intro attempt; simp [retryLoop]
  | succ remaining ih =>
    intro attempt
    cases hop : op attempt with
    | ok v => simp [retryLoop, hop]
    | error e =>
      simp only [retryLoop, hop]
      obtain ⟨m, hm⟩ : ∃ m, (retryLoop op D remaining (attempt + 1)).2.1 = m + 1 :=
        ⟨(retryLoop op D remaining (attempt + 1)).2.1 - 1,
         by have := retryLoop_count_pos op D remaining (attempt + 1); omega⟩
      rw [ih (attempt + 1), hm]
      simp only [Nat.add_sub_cancel]
      rw [delayList_shift]

/-- C2: `retry` invokes the operation at most `maxRetries + 1` times in
total; if the first `k` invocations fail and the `k`-th (0-indexed)
succeeds, `retry` returns that success and performs exactly `k + 1`
invocations (no further ones); and for an operation failing on every
invocation exactly `maxRetries + 1` invocations occur. -/
theorem retry_attempt_count (op : Nat → Except E T) (R D : Nat) :
    (retry op R D).2.1 ≤ R + 1
  ∧ (∀ (k : Nat) (v : T), k ≤ R → (∀ i, i < k → ∃ e, op i = .error e) →
      op k = .ok v → (retry op R D).1 = .ok v ∧ (retry op R D).2.1 = k + 1)
  ∧ ((∀ i, ∃ e, op i = .error e) → (retry op R D).2.1 = R + 1) := by
  refine ⟨retryLoop_count_le op D R 0, ?_, ?_⟩
  · intro k v hk hfail hok
    have h := retryLoop_firstSuccess op D k R 0 v hk
      (by intro i hi; simpa using hfail i hi)
      (by simpa using hok)
    rw [retry, h]
    exact ⟨rfl, rfl⟩
  · intro hfail
    obtain ⟨e, he, hh⟩ := retryLoop_allFail op D hfail R 0
    rw [retry, hh]

/-- Witness for C2: an operation failing on attempts 0 and 1 and
succeeding on attempt 2, with `maxRetries = 3`: exactly 3 invocations,
success returned, and never more than 4 invocations; an always-failing
operation with `maxRetries = 2` is invoked exactly 3 times. -/
theorem retry_attempt_count_witness :
    (retry (fun i => if i < 2 then (Except.error i : Except Nat Nat) else .ok i) 3 10).1
      = .ok 2
  ∧ (retry (fun i => if i < 2 then (Except.error i : Except Nat Nat) else .ok i) 3 10).2.1
      = 3
  ∧ (retry (fun i => if i < 2 then (Except.error i : Except Nat Nat) else .ok i) 3 10).2.1
      ≤ 4
  ∧ (retry (fun i => (Except.error i : Except Nat Nat)) 2 5).2.1 = 3 := by
  have h := retry_attempt_count
    (fun i => if i < 2 then (Except.error i : Except Nat Nat) else .ok i) 3 10
  have h2 := retry_attempt_count (fun i => (Except.error i : Except Nat Nat)) 2 5
  have hs := h.2.1 2 2 (by norm_num)
    (by intro i hi; exact ⟨i, by simp [hi]⟩) (by norm_num)
  exact ⟨hs.1, hs.2, h.1, h2.2.2 (fun i => ⟨i, rfl⟩)⟩

/-- C3: the backoff delays `retry` sleeps are exactly
`baseDelay * 2 ^ i` for the `i`-th inter-attempt gap, with no jitter and
no cap — the delay list of every run is `[D*2^0, ..., D*2^(n-2)]` where
`n` is the number of invocations performed, so in particular no delay
follows the final attempt; and for an operation failing every attempt
the list is `[D*2^0, ..., D*2^(maxRetries-1)]` (for `maxRetries = 3`,
`baseDelay = 1000`: `[1000, 2000, 4000]`, checked in the witness). -/
theorem retry_backoff_schedule (op : Nat → Except E T) (R D : Nat) :
    (retry op R D).2.2
      = (List.range ((retry op R D).2.1 - 1)).map (fun i => D * 2 ^ i)
  ∧ ((∀ i, ∃ e, op i = .error e) →
      (retry op R D).2.2 = (List.range R).map (fun i => D * 2 ^ i)) := by
  constructor
  · have h := retryLoop_delays op D R 0
    rw [retry]
    simpa using h
  · intro hfail
    obtain ⟨e, he, hh⟩ := retryLoop_allFail op D hfail R 0
    rw [retry, hh]
    simp

/-- Witness for C3: an always-failing operation with `maxRetries = 3`
and `baseDelay = 1000` sleeps exactly `[1000, 2000, 4000]` between its
four attempts. -/
theorem retry_backoff_schedule_witness :
    (retry (fun i => (Except.error i : Except Nat Nat)) 3 1000).2.2
      = [1000, 2000, 4000] := by
  rw [(retry_backoff_schedule (fun i => (Except.error i : Except Nat Nat)) 3 1000).2
    (fun i => ⟨i, rfl⟩)]
  rfl

/-- Counterexample to C5 as stated: the code of `retry` has no
`OperationFailed` error kind at all — on exhaustion it rethrows the last
underlying error itself, unchanged.  Concretely, for an operation whose
`i`-th invocation fails with the error value `100 + i` and
`maxRetries = 2`, the surfaced failure is the raw value `102` (the last
underlying failure), not a wrapper around it. -/
theorem retry_no_wrapper :
    retry (fun i => (Except.error (100 + i) : Except Nat Nat)) 2 1
      = (.error 102, 3, [1, 2]) := by rfl

/-- C5, amended: for an operation failing on all `maxRetries + 1`
attempts, `retry` surfaces the **last underlying failure itself,
unchanged** (the source has no `OperationFailed` wrapper); earlier
failures are discarded, and the failure is surfaced only after all
`maxRetries + 1` invocations have occurred. -/
theorem retry_surfaces_last_error (op : Nat → Except E T) (R D : Nat)
    (hfail : ∀ i, ∃ e, op i = .error e) :
    ∃ e, op R = .error e ∧ (retry op R D).1 = .error e
      ∧ (retry op R D).2.1 = R + 1 := by
  obtain ⟨e, he, hh⟩ := retryLoop_allFail op D hfail R 0
  rw [Nat.zero_add] at he
  exact ⟨e, he, by rw [retry, hh], by rw [retry, hh]⟩

/-- Witness for C5's amended statement at a concrete always-failing
operation with `maxRetries = 2`. -/
theorem retry_surfaces_last_error_witness :
    ∃ e, (fun i => (Except.error i : Except Nat Nat)) 2 = .error e
      ∧ (retry (fun i => (Except.error i : Except Nat Nat)) 2 5).1 = .error e
      ∧ (retry (fun i => (Except.error i : Except Nat Nat)) 2 5).2.1 = 2 + 1 :=
  retry_surfaces_last_error (fun i => (Except.error i : Except Nat Nat)) 2 5
    (fun i => ⟨i, rfl⟩)

/-- A settled promise in the deterministic timed model: it settles at
`time` (in time units from the start of the race) with outcome `out`.
Nothing in the model cancels it — it settles at `time` regardless of who
wins the race. -/
structure MPromise (E T : Type) where
  time : Nat
  out : Except E T

/-- Outcome of `Utils.timeout`'s `Promise.race`: the raced promise
settled first (with its own outcome, value or rejection), or the
deadline timer fired first and the race rejects with the timeout
error. -/
inductive RaceResult (E T : Type)
  | settled : Except E T → RaceResult E T
  | timedOut : RaceResult E T

/-- `Utils.timeout promise ms`: `Promise.race` between the promise and a
timer that rejects at `ms`.  The first component is the time at which
the race settles.  If the promise settles strictly before `ms` it wins;
otherwise the timer's rejection (scheduled for exactly `ms`) wins. -/
def timeout (p : MPromise E T) (ms : Nat) : Nat × RaceResult E T :=
  if p.time < ms then (p.time, .settled p.out) else (ms, .timedOut)

/-- C6: the race `timeout p ms` resolves with the promise's own outcome
when it settles before `ms` elapses; otherwise it fails with the timeout
rejection at exactly `ms` — hence at or after `ms`, never before.  The
losing still-pending operation is not cancelled (the model's promise
still settles at its own `time`) and its eventual outcome has no
observable effect: any two promises settling at the same late time give
identical race results, whatever their outcomes. -/
theorem timeout_race (p : MPromise E T) (ms : Nat) :
    (p.time < ms → timeout p ms = (p.time, .settled p.out))
  ∧ (ms ≤ p.time →
      (timeout p ms).2 = .timedOut ∧ (timeout p ms).1 = ms ∧ ms ≤ (timeout p ms).1)
  ∧ (∀ q : MPromise E T, q.time = p.time → ms ≤ p.time →
      timeout q ms = timeout p ms) := by
  refine ⟨?_, ?_, ?_⟩
  · intro h
    simp [timeout, h]
  · intro h
    simp [timeout, Nat.not_lt.mpr h]
  · intro q hq h
    simp [timeout, hq, Nat.not_lt.mpr h]

/-- Witness for C6: a promise settling at 3 with value 5 wins a race
with deadline 10; promises settling at 12 with different outcomes both
lose a race with deadline 10 with the identical timeout result. -/
theorem timeout_race_witness :
    timeout (MPromise.mk 3 (Except.ok 5) : MPromise Unit Nat) 10 = (3, .settled (.ok 5))
  ∧ (timeout (MPromise.mk 12 (Except.ok 5) : MPromise Unit Nat) 10).2 = .timedOut
  ∧ (timeout (MPromise.mk 12 (Except.ok 5) : MPromise Unit Nat) 10).1 = 10
  ∧ timeout (MPromise.mk 12 (Except.error ()) : MPromise Unit Nat) 10
      = timeout (MPromise.mk 12 (Except.ok 5) : MPromise Unit Nat) 10 := by
  have h1 := timeout_race (MPromise.mk 3 (Except.ok 5) : MPromise Unit Nat) 10
  have h2 := timeout_race (MPromise.mk 12 (Except.ok 5) : MPromise Unit Nat) 10
  exact ⟨h1.1 (by norm_num), (h2.2.1 (by norm_num)).1, (h2.2.1 (by norm_num)).2.1,
    h2.2.2 (MPromise.mk 12 (Except.error ())) rfl (by norm_num)⟩

/-- One call to the function returned by `Utils.throttle func limit`, in
the timed model.  The closure state is the time at which the current
lock clears (`none` before the first call; the source's boolean
`inThrottle` is true exactly while the current time is below it, since
`setTimeout(() => inThrottle = false, limit)` clears it `limit` after
the firing call).  A call at time `t` while unlocked invokes `func`
immediately (recorded as `(t, args)`) and locks until `t + limit`; a
call while locked is dropped — nothing is invoked, queued or
deferred. -/
def throttleCall (limit : Nat) (s : Option Nat) (t : Nat) (a : A) :
    Option Nat × List (Nat × A) :=
  match s with
  | some unlockAt =>
    if t < unlockAt then (some unlockAt, [])
    else (some (t + limit), [(t, a)])
  | none => (some (t + limit), [(t, a)])

/-- Fold `throttleCall` over a time-ordered list of calls, collecting
the invocations of the wrapped function in order. -/
def throttleRun (limit : Nat) : Option Nat → List (Nat × A) → Option Nat × List (Nat × A)
  | s, [] => (s, [])
  | s, (t, a) :: rest =>
    let step := throttleCall limit s t a
    let next := throttleRun limit step.1 rest
    (next.1, step.2 ++ next.2)

/-- C8: the function returned by `throttle f L` invokes `f` immediately
with the arguments of the first call arriving in an unlocked state
(initially, or once the lock time has passed) and locks for duration
`L`; every call arriving while locked is dropped — `f` is not invoked
for it, and nothing is queued or deferred (the state is unchanged); and
the first call arriving at or after the lock clears invokes `f`
immediately again, restarting the cycle. -/
theorem throttle_behavior (L t u unlockAt : Nat) (a b : A) :
    throttleCall L none t a = (some (t + L), [(t, a)])
  ∧ (u < unlockAt → throttleCall L (some unlockAt) u b = (some unlockAt, []))
  ∧ (unlockAt ≤ u → throttleCall L (some unlockAt) u b = (some (u + L), [(u, b)])) := by
  refine ⟨rfl, ?_, ?_⟩
  · intro h
    simp [throttleCall, h]
  · intro h
    simp [throttleCall, Nat.not_lt.mpr h]

/-- Witness for C8, including the spec's scenario: `throttle f 100`
called 5 times at time 0 invokes `f` exactly once (with the first
call's arguments), and a 6th call at time 150 invokes `f` again. -/
theorem throttle_behavior_witness :
    throttleCall 100 none 0 1 = (some 100, [(0, 1)])
  ∧ throttleCall 100 (some 100) 0 2 = (some 100, [])
  ∧ throttleCall 100 (some 100) 150 6 = (some 250, [(150, 6)])
  ∧ throttleRun 100 none [(0, 1), (0, 2), (0, 3), (0, 4), (0, 5), (150, 6)]
      = (some 250, [(0, 1), (150, 6)]) := by
  have h1 := throttle_behavior 100 0 0 100 1 (2 : Nat)
  have h2 := throttle_behavior 100 0 150 100 1 (6 : Nat)
  exact ⟨h1.1, h1.2.1 (by norm_num), h2.2.2 (by norm_num), rfl⟩

/-- Closure state of the function returned by `Utils.debounce`: the
source's single `timeout` handle, `some (fireAt, args)` when a call to
`func` with `args` is scheduled for time `fireAt`, `none` otherwise.  By
construction at most one scheduled invocation is pending at any
instant — the model of the one mutable `timeout` variable. -/
structure DebounceState (A : Type) where
  pending : Option (Nat × A)

/-- One call at time `t` with arguments `a` to the function returned by
`Utils.debounce func wait`.  If the previously scheduled call has
already fired (its fire time is at or before `t`), that firing is
recorded; otherwise `clearTimeout` discards it.  Either way the call
schedules `func a` for `t + wait`.  Returns the new state and the
invocations of `func` that occurred (at their fire times). -/
def debounceCall (wait : Nat) (s : DebounceState A) (t : Nat) (a : A) :
    DebounceState A × List (Nat × A) :=
  match s.pending with
  | some (fireAt, b) =>
    if fireAt ≤ t then (⟨some (t + wait, a)⟩, [(fireAt, b)])
    else (⟨some (t + wait, a)⟩, [])
  | none => (⟨some (t + wait, a)⟩, [])

/-- Fold `debounceCall` over a time-ordered list of calls. -/
def debounceRun (wait : Nat) :
    DebounceState A → List (Nat × A) → DebounceState A × List (Nat × A)
  | s, [] => (s, [])
  | s, (t, a) :: rest =>
    let step := debounceCall wait s t a
    let next := debounceRun wait step.1 rest
    (next.1, step.2 ++ next.2)

/-- The complete invocation trace of a debounced function over a call
sequence: run every call, then let the final pending timer (if any)
fire. -/
def debounceTrace (wait : Nat) (calls : List (Nat × A)) : List (Nat × A) :=
  let run := debounceRun wait ⟨none⟩ calls
  match run.1.pending with
  | some (fireAt, a) => run.2 ++ [(fireAt, a)]
  | none => run.2

theorem debounceRun_burst (wait : Nat) :
    ∀ (rest : List (Nat × A)) (t : Nat) (a : A),
      List.Chain' (fun x y : Nat × A => x.1 ≤ y.1 ∧ y.1 < x.1 + wait) ((t, a) :: rest) →
      debounceRun wait ⟨some (t + wait, a)⟩ rest
        = (⟨some ((((t, a) :: rest).getLast (by simp)).1 + wait,
                  (((t, a) :: rest).getLast (by simp)).2)⟩, []) := by
  intro rest
  induction rest with
  | nil =>
    intro t a _
    simp [debounceRun, List.getLast]
  | cons p rest ih =>
    obtain ⟨t2, a2⟩ := p
    intro t a hch
    rw [List.chain'_cons] at hch
    obtain ⟨⟨hle, hlt⟩, hch2⟩ := hch
    simp only [debounceRun, debounceCall]
    rw [if_neg (by omega)]
    have hrec := ih t2 a2 hch2
    simp only at hrec
    rw [hrec]
    simp [List.getLast]

/-- C7: for every wait `w` and every burst of `k ≥ 1` calls whose times
are nondecreasing with each consecutive pair less than `w` apart, the
debounced function invokes `func` exactly once — at `w` time units after
the last call of the burst, with the arguments of that last call.  Each
call of the burst cancels the previously scheduled invocation (its fire
time has not yet arrived), so the single `timeout` handle — an
`Option`-valued state holding at most one pending scheduled invocation
at any instant — is simply replaced each time. -/
theorem debounce_burst (wait : Nat) (calls : List (Nat × A)) (h : calls ≠ [])
    (hb : List.Chain' (fun x y : Nat × A => x.1 ≤ y.1 ∧ y.1 < x.1 + wait) calls) :
    debounceTrace wait calls
      = [((calls.getLast h).1 + wait, (calls.getLast h).2)] := by
  obtain ⟨⟨t, a⟩, rest, rfl⟩ : ∃ p rest, calls = p :: rest := by
    cases calls with
    | nil => exact absurd rfl h
    | cons p rest => exact ⟨p, rest, rfl⟩
  simp only [debounceTrace, debounceRun, debounceCall]
  rw [debounceRun_burst wait rest t a hb]
  simp

/-- Witness for C7, the spec's scenario: `debounce f 100` called 5 times
within 50 time units (at times 0, 10, 20, 30, 40 with arguments 1..5)
invokes `f` exactly once, at time 140, with the 5th call's argument. -/
theorem debounce_burst_witness :
    debounceTrace 100 [(0, 1), (10, 2), (20, 3), (30, 4), (40, 5)] = [(140, 5)] := by
  have h := debounce_burst 100 [(0, 1), (10, 2), (20, 3), (30, 4), (40, 5)]
    (by simp) (by simp [List.chain'_cons])
  simpa using h

end SteerUtils
